import Mathlib

set_option maxHeartbeats 1000000

/-!
Verification development for the patchyx repository.

The first part embeds `src/libpijul/src/diff/diff.rs`: the `Algorithm`
selector, the `Replacement` spans, the sink `D` that collects spans (with
its `stop_early` abort behaviour), and the `diff` dispatcher.  The three
diff algorithms themselves live in the external crates `diffs` and
`imara-diff`; they are modelled from the spec (section 4.5) as
common-subsequence based line diffs.

The second part embeds `complete_deps` from
`src/pijul/src/commands/pushpull.rs`.

The third part models the apply/unapply engine of libpijul from the spec
(section 4.4), and the channel/tag commands of `src/pijul/src/commands/`
(`channel.rs`, `tag.rs`) over a repository-state model.
-/

/-- Line tokens of the diff.  The source diffs slices of `Line` values
compared by equality (imara-diff interns them to integer tokens); we take
the token universe to be `Nat`. -/
abbrev Line := Nat

/-- Algorithm used to compute the diff (from `diff.rs`). -/
inductive Algorithm where
  | Myers
  | Patience
  | ImaraHistogram
deriving DecidableEq

/-- The `Default` impl for `Algorithm` in `diff.rs` returns `Myers`. -/
def Algorithm.default : Algorithm := Algorithm.Myers

/-- A replacement span, from `diff.rs`: the span `[old, old + old_len)` of
the first sequence is replaced by the span `[new, new + new_len)` of the
second sequence. -/
structure Replacement where
  old : Nat
  old_len : Nat
  new : Nat
  new_len : Nat
deriving DecidableEq

/-- The sink `D` of `diff.rs`: the collected replacement list together
with the `stop_early` flag. -/
structure D where
  r : List Replacement
  stop_early : Bool
deriving DecidableEq

/-- Length accessor of `D` (the `len` method in `diff.rs`). -/
def D.len (d : D) : Nat := d.r.length

/-- Longest common subsequence of two token sequences, by the classical
recursion.  This is the semantic core used to model the external diff
algorithms: a Myers minimal edit script is exactly the complement of a
longest common subsequence. -/
def lcs : List Line → List Line → List Line
  | [], _ => []
  | _ :: _, [] => []
  | x :: xs, y :: ys =>
    if x = y then x :: lcs xs ys
    else if (lcs (x :: xs) ys).length < (lcs xs (y :: ys)).length then
      lcs xs (y :: ys)
    else lcs (x :: xs) ys
termination_by a b => a.length + b.length
decreasing_by
  all_goals simp [List.length_cons]
  all_goals omega

/-- Turn a common subsequence `cs` of `a` and `b` into a list of merged
replacement spans, with `ia`/`ib` the absolute offsets of `a`/`b` inside
the two full sequences.  Between two matched tokens (and before the first
and after the last) the differing stretches of `a` and `b` become one
`Replacement`, exactly the merged delete/insert/replace spans that
`diffs::Replace` hands to the sink `D`. -/
def scriptFrom : List Line → List Line → List Line → Nat → Nat → List Replacement
  | [], a, b, ia, ib =>
    if a.isEmpty && b.isEmpty then []
    else [⟨ia, a.length, ib, b.length⟩]
  | c :: cs, a, b, ia, ib =>
    let pa := a.takeWhile (fun z => z != c)
    let ta := a.dropWhile (fun z => z != c)
    let pb := b.takeWhile (fun z => z != c)
    let tb := b.dropWhile (fun z => z != c)
    (if pa.isEmpty && pb.isEmpty then []
     else [⟨ia, pa.length, ib, pb.length⟩])
      ++ scriptFrom cs ta.tail tb.tail (ia + pa.length + 1) (ib + pb.length + 1)

/-- Refine an anchor sequence (a common subsequence of `a` and `b`) by
running the full LCS between consecutive anchors.  Both the Patience and
Histogram algorithms work this way: select anchor lines, then diff the
stretches between anchors. -/
def refine : List Line → List Line → List Line → List Line
  | [], a, b => lcs a b
  | c :: cs, a, b =>
    let pa := a.takeWhile (fun z => z != c)
    let ta := a.dropWhile (fun z => z != c)
    let pb := b.takeWhile (fun z => z != c)
    let tb := b.dropWhile (fun z => z != c)
    lcs pa pb ++ c :: refine cs ta.tail tb.tail

/-- Modelled from the spec: `diffs::myers::diff` (external crate, not
under src/).  Myers computes a minimal edit script, i.e. the complement of
a longest common subsequence; through `diffs::Replace` the sink receives
the merged replacement spans between matched lines. -/
def myersScript (a b : List Line) : List Replacement :=
  scriptFrom (lcs a b) a b 0 0

/-- Patience anchors: lines occurring exactly once in both sequences. -/
def patienceAnchors (a b : List Line) : List Line :=
  lcs (a.filter fun x => (a.count x == 1) && (b.count x == 1))
      (b.filter fun x => (a.count x == 1) && (b.count x == 1))

/-- Modelled from the spec: `diffs::patience::diff` (external crate, not
under src/).  Patience diff matches lines that are unique in both inputs,
and diffs the stretches between those anchors with Myers. -/
def patienceScript (a b : List Line) : List Replacement :=
  scriptFrom (refine (patienceAnchors a b) a b) a b 0 0

/-- Histogram anchors: lines with a low occurrence count on both sides
(imara-diff bounds the histogram chains at 63 occurrences). -/
def histogramAnchors (a b : List Line) : List Line :=
  lcs (a.filter fun x => (a.count x ≤ 63) && (b.count x ≤ 63))
      (b.filter fun x => (a.count x ≤ 63) && (b.count x ≤ 63))

/-- Modelled from the spec: `imara_diff::diff` with
`Algorithm::Histogram` (external crate, not under src/).  Histogram diff
anchors on rarely occurring lines and refines between anchors. -/
def histogramScript (a b : List Line) : List Replacement :=
  scriptFrom (refine (histogramAnchors a b) a b) a b 0 0

/-- One push into the sink `D`: the `delete`, `insert` and `replace`
methods of `impl diffs::Diff for D` all push the span and then return
`Err(())` exactly when `stop_early` is set.  `runDiffs` is the external
driver loop modelled from the spec: the `diffs` crate algorithms stop as
soon as the sink returns `Err`. -/
def runDiffs : D → List Replacement → D
  | d, [] => d
  | d, r :: rs =>
    let d1 : D := ⟨d.r ++ [r], d.stop_early⟩
    if d.stop_early then d1 else runDiffs d1 rs

/-- The `imara_diff::Sink` impl for `D` in `diff.rs`: `process_change`
pushes every span unconditionally (it never consults `stop_early`), and
`finish` returns the sink. -/
def runImara (d : D) (rs : List Replacement) : D :=
  ⟨d.r ++ rs, d.stop_early⟩

/-- The `diff` function of `diff.rs`: build the sink with an empty span
list and the given `stop_early` flag, then dispatch on the algorithm:
`Patience` and `Myers` run through `diffs::Replace` into the sink,
`ImaraHistogram` runs through the `imara_diff` bridge. -/
def diff (lines_a lines_b : List Line) (algorithm : Algorithm)
    (stop_early : Bool) : D :=
  let result : D := ⟨[], stop_early⟩
  match algorithm with
  | Algorithm.Patience => runDiffs result (patienceScript lines_a lines_b)
  | Algorithm.Myers => runDiffs result (myersScript lines_a lines_b)
  | Algorithm.ImaraHistogram => runImara result (histogramScript lines_a lines_b)

/-- Validity of a replacement list over inputs of length `la` and `lb`:
every span lies inside its sequence, and the spans are pairwise disjoint
and strictly increasing on both sides (`ja`/`jb` are the lower bounds for
the next span). -/
def validRepls (la lb : Nat) : List Replacement → Nat → Nat → Prop
  | [], _, _ => True
  | r :: rs, ja, jb =>
    ja ≤ r.old ∧ jb ≤ r.new ∧ r.old + r.old_len ≤ la ∧ r.new + r.new_len ≤ lb ∧
    validRepls la lb rs (r.old + r.old_len + 1) (r.new + r.new_len + 1)

/-- Apply a replacement list to `A` (already processed up to position
`i`), taking replacement text from `B`: copy the unchanged stretch before
each span, emit the text of the span from `B`, skip the replaced stretch
of `A`. -/
def applyRepl (A B : List Line) : List Replacement → Nat → List Line
  | [], i => A.drop i
  | r :: rs, i =>
    (A.drop i).take (r.old - i) ++ (B.drop r.new).take r.new_len ++
      applyRepl A B rs (r.old + r.old_len)

/-!
Embedding of `complete_deps` from `src/pijul/src/commands/pushpull.rs`.
Changes are identified by their hash (a `Nat` here); the change store is
abstracted to its `get_dependencies` function.
-/

/-- A changelist entry, from `pijul_remote::CS`: either a change hash or
a tag state hash. -/
inductive CS where
  | change : Nat → CS
  | state : Nat → CS
deriving DecidableEq

/-- The `is_missing` test inside `complete_deps`: a dependency `d` is
missing when it is in neither the requested set nor the already-emitted
set, and — when the list came back from user editing (`original` present)
— only when the original list contained it. -/
def isMissing (original : Option (List CS)) (now resultH : List CS)
    (d : Nat) : Bool :=
  (decide (CS.change d ∉ now) && decide (CS.change d ∉ resultH)) &&
    match original with
    | some orig => decide (CS.change d ∈ orig)
    | none => true

/-- The loop of `complete_deps`: `stack` is the work stack (head is the
top, i.e. the next `pop`), `result` the output list so far, `resultH` the
set of change entries already emitted.  The Rust loop has no fuel; a
cyclic dependency function would make it spin, so the embedding returns
`none` when the fuel runs out. -/
def completeDepsGo (deps : Nat → List Nat) (original : Option (List CS))
    (now : List CS) :
    Nat → List CS → List CS → List CS → Option (List CS)
  | 0, _, _, _ => none
  | _ + 1, [], result, _ => some result
  | fuel + 1, h :: stack, result, resultH =>
    match h with
    | CS.state _ =>
      completeDepsGo deps original now fuel stack (result ++ [h]) resultH
    | CS.change hh =>
      let missing := (deps hh).filter (isMissing original now resultH)
      if missing = [] then
        if h ∈ resultH then
          completeDepsGo deps original now fuel stack result resultH
        else
          completeDepsGo deps original now fuel stack (result ++ [h])
            (h :: resultH)
      else
        completeDepsGo deps original now fuel
          ((missing.reverse.map CS.change) ++ h :: stack) result resultH

/-- The function `complete_deps` of `pushpull.rs`: close the list `now`
under the dependency function.  The Rust stack is a `Vec` popped from the
back and seeded with `now` reversed, so the first element popped is
`now[0]`; the embedding seeds a head-is-top stack with `now` directly. -/
def complete_deps (deps : Nat → List Nat) (original : Option (List CS))
    (now : List CS) (fuel : Nat) : Option (List CS) :=
  completeDepsGo deps original now fuel now [] []

/-- Dependencies of a changelist entry: tag states have none. -/
def depsOfCS (deps : Nat → List Nat) : CS → List Nat
  | CS.change c => deps c
  | CS.state _ => []

/-- The ordering property claimed of `complete_deps`: every dependency of
a listed change appears strictly earlier in the list. -/
def depsStrictlyBefore (deps : Nat → List Nat) (l : List CS) : Prop :=
  ∀ i : Fin l.length, ∀ d ∈ depsOfCS deps (l.get i),
    ∃ j : Fin l.length, j.val < i.val ∧ l.get j = CS.change d

/-- The ordering property that actually holds of the output of
`complete_deps`: scanning the list left to right with `seen` the prefix
already scanned, every dependency of a listed change is either itself one
of the explicitly requested entries or appears in the prefix. -/
def depOrderFrom (deps : Nat → List Nat) (now : List CS) :
    List CS → List CS → Prop
  | _, [] => True
  | seen, x :: rest =>
    (∀ d ∈ depsOfCS deps x, CS.change d ∈ now ∨ CS.change d ∈ seen) ∧
    depOrderFrom deps now (seen ++ [x]) rest

/-- Test for tag-state entries. -/
def isStateCS : CS → Bool
  | CS.state _ => true
  | CS.change _ => false

/-!
Model of the apply/unapply engine (spec section 4.4) and of the channel
and tag state that the `channel.rs` and `tag.rs` commands manipulate.
The libpijul core is not under src/, so the tables are modelled from the
spec data model (section 3): a channel owns a graph of stamped edges, the
changes log, `revchanges`, `states`, `tags` and the apply counter.
-/

/-- An edge of the channel graph.  Positions are flattened to `Nat`
endpoints; `flag` is `true` for `ALIVE` and `false` for `DELETED`;
`pseudo` marks synthesized pseudo-edges; `introducedBy` is the stamp of
the change whose apply created the edge. -/
structure Edge where
  src : Nat
  tgt : Nat
  flag : Bool
  pseudo : Bool
  introducedBy : Nat
deriving DecidableEq

/-- A channel, from the spec data model: graph, changes log (append
order, so the last entry is the newest), `revchanges`, the `states`
Merkle sequence, the `tags` table (ordinal to Merkle) and the apply
counter, plus the channel-scoped `dep` and `touched` tables. -/
@[ext]
structure Channel where
  graph : List Edge
  changesLog : List (Nat × Nat)
  revchanges : List (Nat × Nat)
  states : List Nat
  tags : List (Nat × Nat)
  applyCounter : Nat
  dep : List (Nat × Nat)
  touched : List (Nat × Nat)
deriving DecidableEq

/-- A change as the apply engine consumes it: its assigned `ChangeId`,
its content hash, the edges its hunks introduce, the keys of the edges
its hunks delete, the pseudo-edges its apply installs, its dependency
set, and the inodes it touches. -/
structure Change where
  id : Nat
  hash : Nat
  newEdges : List Edge
  delEdges : List (Nat × Nat)
  pseudoEdges : List Edge
  deps : List Nat
  touches : List Nat
deriving DecidableEq

/-- Modelled from the spec: the rolling Merkle combining function,
`H(prev_merkle || change_hash)`; any injective-enough combination works
for the inverse law, we use a pairing polynomial. -/
def merkleStep (m h : Nat) : Nat := (m + h) * (m + h) + h + 1

/-- The Merkle of the latest state of a channel (`0` for the empty
channel). -/
def lastMerkle (K : Channel) : Nat := (K.states.getLast?).getD 0

/-- Mark an edge deleted when its key is listed: the `ALIVE` flag is
replaced by `DELETED` (spec section 4.4 step 2). -/
def markDeleted (dels : List (Nat × Nat)) (e : Edge) : Edge :=
  if (e.src, e.tgt) ∈ dels then { e with flag := false } else e

/-- Restore the `ALIVE` flag of an edge whose key the unapplied change
had deleted (spec section 4.4, unapply). -/
def restoreDeleted (dels : List (Nat × Nat)) (e : Edge) : Edge :=
  if (e.src, e.tgt) ∈ dels then { e with flag := true } else e

/-- Modelled from the spec: `Apply(change C into channel K)` of section
4.4 — stamp and insert the new edges and pseudo-edges of C, mark the
edges C deletes, record the dep and touched pairs, append to the changes
log with a fresh ordinal, bump the apply counter, and push the new rolling
Merkle onto `states`. -/
def applyChange (K : Channel) (C : Change) : Channel :=
  { graph := K.graph.map (markDeleted C.delEdges) ++ C.newEdges ++ C.pseudoEdges
    changesLog := K.changesLog ++ [(K.applyCounter, C.id)]
    revchanges := K.revchanges ++ [(C.id, K.applyCounter)]
    states := K.states ++ [merkleStep (lastMerkle K) C.hash]
    tags := K.tags
    applyCounter := K.applyCounter + 1
    dep := K.dep ++ C.deps.map (fun d => (C.id, d))
    touched := K.touched ++ C.touches.map (fun i => (C.id, i)) }

/-- Modelled from the spec: `Unapply(C from K)` of section 4.4 — remove
every edge stamped with the id of C (including its pseudo-edges), restore
the `ALIVE` flags of the edges C had deleted, drop the dep and touched
entries of C, pop the changes log, `revchanges` and `states`, and
decrement the apply counter. -/
def unapplyChange (K : Channel) (C : Change) : Channel :=
  { graph := (K.graph.filter (fun e => e.introducedBy != C.id)).map
      (restoreDeleted C.delEdges)
    changesLog := K.changesLog.dropLast
    revchanges := K.revchanges.dropLast
    states := K.states.dropLast
    tags := K.tags
    applyCounter := K.applyCounter - 1
    dep := K.dep.filter (fun p => p.1 != C.id)
    touched := K.touched.filter (fun p => p.1 != C.id) }

/-- Applicability of a change C to a channel K, per the claim and the
preconditions of spec section 4.4: every dependency of C is already
applied in K, the id of C is fresh (step 1 assigns it, so no edge, dep or
touched entry of K carries it), the edges C introduces are stamped with
its id, and every edge C deletes is currently `ALIVE` in K. -/
def applicable (K : Channel) (C : Change) : Prop :=
  (∀ d ∈ C.deps, ∃ p ∈ K.changesLog, p.2 = d) ∧
  (∀ e ∈ K.graph, e.introducedBy ≠ C.id) ∧
  (∀ e ∈ C.newEdges, e.introducedBy = C.id) ∧
  (∀ e ∈ C.pseudoEdges, e.introducedBy = C.id) ∧
  (∀ e ∈ K.graph, (e.src, e.tgt) ∈ C.delEdges → e.flag = true) ∧
  (∀ p ∈ K.dep, p.1 ≠ C.id) ∧
  (∀ p ∈ K.touched, p.1 ≠ C.id)

/-!
Model of the repository state manipulated by the commands in
`src/pijul/src/commands/channel.rs` and `tag.rs`: the named channels of
the pristine, the current-channel selection, the working copy, and the
content-addressed blob store holding tag files.
-/

/-- Errors surfaced by the command embeddings (each corresponds to a
`bail!` in `channel.rs` or `tag.rs`). -/
inductive CmdError where
  | cannotDeleteCurrent
  | noSuchChannel
  | channelAlreadyExists
  | channelIsEmpty
  | alreadyTagged
  | unrecordedChanges
  | noSuchTag
deriving DecidableEq

/-- The repository state: the channel table of the pristine, the
current-channel selection, the working copy (path to contents), and the
tag blobs on disk (Merkle to frozen channel snapshot). -/
structure RepoState where
  channels : List (String × Channel)
  current : Option String
  workingCopy : List (String × List Nat)
  tagFiles : List (Nat × Channel)
deriving DecidableEq

/-- Commit semantics of the commands: a command that returns an error
never reaches `txn.commit()`, so the pristine keeps its previous state;
a command that succeeds commits the new state. -/
def runCmd (st : RepoState) : Except CmdError RepoState → RepoState
  | Except.ok s => s
  | Except.error _ => st

/-- Test for the error outcome of a command. -/
def isErr (r : Except CmdError RepoState) : Bool :=
  match r with
  | Except.error _ => true
  | Except.ok _ => false

/-- Modelled from the spec: `output_repository_no_pending` (libpijul,
not under src/) projects the alive subgraph of a channel onto the working
copy; it renders files from the graph and does not touch any channel
table. -/
def projectChannel (ch : Channel) : List (String × List Nat) :=
  [("output", (ch.graph.filter (fun e => e.flag && !e.pseudo)).map
      (fun e => e.tgt))]

/-- The `load_channel` helper of the pijul commands: open the named
channel, or the current channel when no name is given. -/
def loadChannel (st : RepoState) (name : Option String) :
    Option (String × Channel) :=
  match name with
  | some n => (st.channels.lookup n).map (fun c => (n, c))
  | none =>
    match st.current with
    | some n => (st.channels.lookup n).map (fun c => (n, c))
    | none => none

/-- One base32 digit (the canonical alphabet A..Z then 2..7). -/
def base32Char (n : Nat) : Char :=
  if n < 26 then Char.ofNat (65 + n) else Char.ofNat (50 + (n - 26))

/-- Digit loop of the base32 encoding (structural on a fuel argument so
that it reduces; the value shrinks by a factor 32 per step, so fuel equal
to the value is always enough). -/
def toBase32Go : Nat → Nat → List Char → List Char
  | 0, _, acc => acc
  | _ + 1, 0, acc => acc
  | fuel + 1, n + 1, acc =>
    toBase32Go fuel ((n + 1) / 32) (base32Char ((n + 1) % 32) :: acc)

/-- Modelled from the spec: the canonical base32 rendering of a hash
(`to_base32` of libpijul, not under src/), over the `Nat` model of
Merkle hashes. -/
def toBase32 (n : Nat) : String :=
  if n = 0 then String.mk [base32Char 0] else String.mk (toBase32Go n n [])

/-- The `channel delete` subcommand of `channel.rs`: refuse to delete the
current channel; otherwise `drop_channel` removes the named channel from
the channel table and reports whether it existed, and only then is the
transaction committed. -/
def channelDelete (st : RepoState) (name : String) :
    Except CmdError RepoState :=
  if st.current = some name then Except.error CmdError.cannotDeleteCurrent
  else if (st.channels.lookup name).isSome then
    Except.ok { st with channels := st.channels.filter (fun p => p.1 != name) }
  else Except.error CmdError.noSuchChannel

/-- Modelled from the spec: `reset::Reset::switch` (the reset module is
not under src/; `channel.rs` delegates `channel switch` to it).  Per spec
section 4.7, switch runs Record over the working copy against the current
channel and refuses when the resulting action list is non-empty;
otherwise it selects the target channel and projects it onto the working
copy.  The recorded action list is passed in as the result of Record. -/
def channelSwitch (st : RepoState) (toCh : Option String)
    (actions : List Nat) : Except CmdError RepoState :=
  if actions = [] then
    match loadChannel st toCh with
    | none => Except.error CmdError.noSuchChannel
    | some (name, ch) =>
      Except.ok { st with
        current := some name
        workingCopy := projectChannel ch }
  else Except.error CmdError.unrecordedChanges

/-- The `tag create` subcommand of `tag.rs`: load the channel, refuse if
`try_record` finds unrecorded working-copy changes, refuse if the channel
log is empty, refuse if the latest ordinal is already tagged; otherwise
serialize the channel into a tag blob addressed by its Merkle
(`from_channel`, modelled as freezing the channel snapshot), write the
blob, add one `tags` entry at the latest ordinal, and commit.  The
recorded action list is passed in as the result of Record. -/
def tagCreate (st : RepoState) (chName : Option String)
    (actions : List Nat) : Except CmdError RepoState :=
  match loadChannel st chName with
  | none => Except.error CmdError.noSuchChannel
  | some (name, ch) =>
    if actions = [] then
      match ch.changesLog.getLast? with
      | none => Except.error CmdError.channelIsEmpty
      | some last =>
        if (ch.tags.lookup last.1).isSome then
          Except.error CmdError.alreadyTagged
        else
          let h := lastMerkle ch
          Except.ok { st with
            tagFiles := st.tagFiles ++ [(h, ch)]
            channels := st.channels.map (fun p =>
              if p.1 = name then
                (p.1, { ch with tags := ch.tags ++ [(last.1, h)] })
              else p) }
    else Except.error CmdError.unrecordedChanges

/-- Modelled from the spec: `libpijul::tag::restore_channel` (not under
src/) rebuilds a channel from the frozen snapshot held in a tag blob. -/
def restoreChannel (snapshot : Channel) : Channel := snapshot

/-- The `tag checkout` subcommand of `tag.rs`: the target channel name is
the requested one, or the base32 rendering of the tag hash when none is
given; if a channel of that name already exists the command bails before
restoring anything, so nothing is committed; otherwise the tag blob is
opened and restored into a new channel of that name. -/
def tagCheckout (st : RepoState) (tag : Nat) (toChannel : Option String) :
    Except CmdError RepoState :=
  let channelName := toChannel.getD (toBase32 tag)
  if (st.channels.lookup channelName).isSome then
    Except.error CmdError.channelAlreadyExists
  else
    match st.tagFiles.lookup tag with
    | none => Except.error CmdError.noSuchTag
    | some snapshot =>
      Except.ok { st with
        channels := st.channels ++ [(channelName, restoreChannel snapshot)] }

/-- The `tag reset` subcommand of `tag.rs`: open the tag blob, project
the tagged state onto the working copy through
`output_repository_no_pending_`, and commit; no channel of the pristine
is touched. -/
def tagReset (st : RepoState) (tag : Nat) : Except CmdError RepoState :=
  match st.tagFiles.lookup tag with
  | none => Except.error CmdError.noSuchTag
  | some snapshot =>
    Except.ok { st with workingCopy := projectChannel snapshot }

/-!
Lemmas about the diff core: the anchor sequences are common subsequences,
and `scriptFrom` turns any common subsequence into a valid replacement
list.
-/

theorem lcs_sublist_aux :
    ∀ n a b, a.length + b.length ≤ n →
      List.Sublist (lcs a b) a ∧ List.Sublist (lcs a b) b := by
  intro n
  induction n with
  | zero =>
    intro a b h
    match a, b with
    | [], b => simp [lcs]
    | x :: xs, b => simp at h
  | succ n ih =>
    intro a b h
    match a, b with
    | [], b => simp [lcs]
    | x :: xs, [] => simp [lcs]
    | x :: xs, y :: ys =>
      by_cases hxy : x = y
      · subst hxy
        have h1 := ih xs ys (by simp at h; omega)
        rw [lcs, if_pos rfl]
        exact ⟨List.Sublist.cons₂ x h1.1, List.Sublist.cons₂ x h1.2⟩
      · have h1 := ih (x :: xs) ys (by simp at h ⊢; omega)
        have h2 := ih xs (y :: ys) (by simp at h ⊢; omega)
        rw [lcs, if_neg hxy]
        by_cases hl : (lcs (x :: xs) ys).length < (lcs xs (y :: ys)).length
        · rw [if_pos hl]
          exact ⟨h2.1.trans (List.sublist_cons_self x xs), h2.2⟩
        · rw [if_neg hl]
          exact ⟨h1.1, h1.2.trans (List.sublist_cons_self y ys)⟩

theorem lcs_sublist_left (a b : List Line) : List.Sublist (lcs a b) a :=
  (lcs_sublist_aux (a.length + b.length) a b le_rfl).1

theorem lcs_sublist_right (a b : List Line) : List.Sublist (lcs a b) b :=
  (lcs_sublist_aux (a.length + b.length) a b le_rfl).2

theorem lcs_self : ∀ a : List Line, lcs a a = a := by
  intro a
  induction a with
  | nil => simp [lcs]
  | cons x xs ih => rw [lcs, if_pos rfl, ih]

/-- Splitting a list at the first occurrence of the head of one of its
common subsequences: the part scanned by `takeWhile` is exactly the part
before the first occurrence, and the rest of the subsequence embeds into
the part after it. -/
theorem sublist_split (c : Line) :
    ∀ (cs a : List Line), List.Sublist (c :: cs) a →
      ∃ sa, a.dropWhile (fun z => z != c) = c :: sa ∧
        a = a.takeWhile (fun z => z != c) ++ c :: sa ∧
        List.Sublist cs sa := by
  intro cs a
  induction a with
  | nil => intro h; exact absurd (List.eq_nil_of_sublist_nil h) (by simp)
  | cons x a1 ih =>
    intro h
    by_cases hx : x = c
    · subst hx
      have hcs : List.Sublist cs a1 := by
        cases h with
        | cons _ h2 => exact (List.sublist_cons_self x cs).trans h2
        | cons₂ _ h2 => exact h2
      refine ⟨a1, ?_, ?_, hcs⟩
      · simp [List.dropWhile]
      · simp [List.takeWhile]
    · have hx2 : (x != c) = true := bne_iff_ne.mpr hx
      have h2 : List.Sublist (c :: cs) a1 := by
        cases h with
        | cons _ h2 => exact h2
        | cons₂ _ h2 => exact absurd rfl hx
      obtain ⟨sa, hd, he, hs⟩ := ih h2
      refine ⟨sa, ?_, ?_, hs⟩
      · simp [List.dropWhile, hx2, hd]
      · simp [List.takeWhile, hx2]
        exact he

theorem getElem?_of_drop (l : List Line) (n : Nat) (x : Line) (t : List Line)
    (h : l.drop n = x :: t) : l[n]? = some x := by
  have h0 := List.getElem?_drop l n 0
  rw [h] at h0
  simpa using h0.symm

theorem take_drop_succ (A : List Line) (i ia : Nat) (c : Line) (t : List Line)
    (hle : i ≤ ia) (hd : A.drop ia = c :: t) :
    (A.drop i).take (ia + 1 - i) = (A.drop i).take (ia - i) ++ [c] := by
  have h1 : ia + 1 - i = (ia - i) + 1 := by omega
  rw [h1, List.take_succ]
  have h2 : (A.drop i)[ia - i]? = A[ia]? := by
    rw [List.getElem?_drop]
    congr 1
    omega
  rw [h2, getElem?_of_drop A ia c t hd]
  rfl

theorem drop_of_split (A : List Line) (ia : Nat) (pa : List Line) (c : Line)
    (ta : List Line) (hA : A.drop ia = pa ++ c :: ta) :
    A.drop (ia + pa.length) = c :: ta ∧
    A.drop (ia + pa.length + 1) = ta := by
  have h1 : A.drop (ia + pa.length) = c :: ta := by
    have h := List.drop_drop pa.length ia A
    rw [hA, List.drop_left] at h
    rw [← h]
  refine ⟨h1, ?_⟩
  have h := List.drop_drop 1 (ia + pa.length) A
  rw [h1] at h
  rw [← h]
  simp

theorem scriptFrom_applyRepl (A B : List Line) :
    ∀ cs a b ia ib i, List.Sublist cs a → List.Sublist cs b →
      A.drop ia = a → B.drop ib = b → i ≤ ia →
      applyRepl A B (scriptFrom cs a b ia ib) i =
        (A.drop i).take (ia - i) ++ b := by
  intro cs
  induction cs with
  | nil =>
    intro a b ia ib i _ _ hA hB hi
    by_cases hab : a = [] ∧ b = []
    · obtain ⟨ha, hb⟩ := hab
      subst ha; subst hb
      simp only [scriptFrom, List.isEmpty_nil, Bool.and_self, if_pos]
      simp only [applyRepl, List.append_nil]
      have hlen : (A.drop i).length ≤ ia - i := by
        have := congrArg List.length hA
        simp only [List.length_drop, List.length_nil] at this
        simp only [List.length_drop]
        omega
      rw [List.take_of_length_le hlen]
    · have hne : (a.isEmpty && b.isEmpty) = false := by
        rcases Decidable.not_and_iff_or_not.mp hab with h | h <;>
          simp [List.isEmpty_iff, h]
      simp only [scriptFrom, hne, if_neg Bool.false_ne_true]
      simp only [applyRepl]
      have hdrop : List.drop (ia + a.length) A = [] := by
        have h := List.drop_drop a.length ia A
        rw [hA] at h
        rw [← h, List.drop_length]
      rw [hB, List.take_length, hdrop, List.append_nil]
  | cons c cs ih =>
    intro a b ia ib i hsa hsb hA hB hi
    obtain ⟨ta, hda, hea, hsa'⟩ := sublist_split c cs a hsa
    obtain ⟨tb, hdb, heb, hsb'⟩ := sublist_split c cs b hsb
    have hAsplit := drop_of_split A ia (a.takeWhile (fun z => z != c)) c ta
      (by rw [hA]; exact hea)
    have hBsplit := drop_of_split B ib (b.takeWhile (fun z => z != c)) c tb
      (by rw [hB]; exact heb)
    simp only [scriptFrom, hda, hdb, List.tail_cons]
    by_cases hpe : a.takeWhile (fun z => z != c) = [] ∧
        b.takeWhile (fun z => z != c) = []
    · obtain ⟨hpa0, hpb0⟩ := hpe
      rw [hpa0, hpb0]
      simp only [List.isEmpty_nil, Bool.and_self, if_pos, List.length_nil,
        Nat.add_zero, List.nil_append]
      have hrec := ih ta tb (ia + 1) (ib + 1) i hsa' hsb'
        (by have := hAsplit.2; rw [hpa0] at this; simpa using this)
        (by have := hBsplit.2; rw [hpb0] at this; simpa using this)
        (by omega)
      rw [hrec]
      have hAc : A.drop ia = c :: ta := by
        rw [hA, hea, hpa0]; rfl
      rw [take_drop_succ A i ia c ta hi hAc]
      rw [heb, hpb0]
      simp
    · have hne : ((a.takeWhile (fun z => z != c)).isEmpty &&
          (b.takeWhile (fun z => z != c)).isEmpty) = false := by
        rcases Decidable.not_and_iff_or_not.mp hpe with h | h <;>
          simp [List.isEmpty_iff, h]
      rw [hne]
      simp only [if_neg Bool.false_ne_true, List.cons_append, List.nil_append]
      simp only [applyRepl]
      have hrec := ih ta tb (ia + (a.takeWhile (fun z => z != c)).length + 1)
        (ib + (b.takeWhile (fun z => z != c)).length + 1)
        (ia + (a.takeWhile (fun z => z != c)).length) hsa' hsb'
        hAsplit.2 hBsplit.2 (by omega)
      rw [hrec]
      rw [hAsplit.1]
      have htake1 : (c :: ta).take ((ia + (a.takeWhile (fun z => z != c)).length + 1)
          - (ia + (a.takeWhile (fun z => z != c)).length)) = [c] := by
        have : (ia + (a.takeWhile (fun z => z != c)).length + 1)
            - (ia + (a.takeWhile (fun z => z != c)).length) = 1 := by omega
        rw [this]
        rfl
      rw [htake1]
      have htakeb : (B.drop ib).take (b.takeWhile (fun z => z != c)).length =
          b.takeWhile (fun z => z != c) := by
        rw [hB]
        exact (List.prefix_iff_eq_take.mp (List.takeWhile_prefix _)).symm
      rw [htakeb]
      conv_rhs => rw [heb]
      simp

theorem validRepls_mono (la lb : Nat) :
    ∀ rs ja jb ja1 jb1, ja ≤ ja1 → jb ≤ jb1 →
      validRepls la lb rs ja1 jb1 → validRepls la lb rs ja jb := by
  intro rs
  induction rs with
  | nil => intro ja jb ja1 jb1 _ _ _; trivial
  | cons r rs _ =>
    intro ja jb ja1 jb1 h1 h2 hv
    obtain ⟨v1, v2, v3, v4, v5⟩ := hv
    exact ⟨le_trans h1 v1, le_trans h2 v2, v3, v4, v5⟩

theorem scriptFrom_valid :
    ∀ cs a b ia ib, List.Sublist cs a → List.Sublist cs b →
      validRepls (ia + a.length) (ib + b.length)
        (scriptFrom cs a b ia ib) ia ib := by
  intro cs
  induction cs with
  | nil =>
    intro a b ia ib _ _
    by_cases hab : a = [] ∧ b = []
    · obtain ⟨ha, hb⟩ := hab
      subst ha; subst hb
      simp only [scriptFrom, List.isEmpty_nil, Bool.and_self, if_pos]
      trivial
    · have hne : (a.isEmpty && b.isEmpty) = false := by
        rcases Decidable.not_and_iff_or_not.mp hab with h | h <;>
          simp [List.isEmpty_iff, h]
      simp only [scriptFrom, hne, if_neg Bool.false_ne_true]
      exact ⟨le_rfl, le_rfl, le_rfl, le_rfl, trivial⟩
  | cons c cs ih =>
    intro a b ia ib hsa hsb
    obtain ⟨ta, hda, hea, hsa'⟩ := sublist_split c cs a hsa
    obtain ⟨tb, hdb, heb, hsb'⟩ := sublist_split c cs b hsb
    have hla : a.length = (a.takeWhile (fun z => z != c)).length + 1 + ta.length := by
      conv_lhs => rw [hea]
      simp
      omega
    have hlb : b.length = (b.takeWhile (fun z => z != c)).length + 1 + tb.length := by
      conv_lhs => rw [heb]
      simp
      omega
    have hrec := ih ta tb (ia + (a.takeWhile (fun z => z != c)).length + 1)
      (ib + (b.takeWhile (fun z => z != c)).length + 1) hsa' hsb'
    have hrla : ia + (a.takeWhile (fun z => z != c)).length + 1 + ta.length =
        ia + a.length := by omega
    have hrlb : ib + (b.takeWhile (fun z => z != c)).length + 1 + tb.length =
        ib + b.length := by omega
    rw [hrla, hrlb] at hrec
    simp only [scriptFrom, hda, hdb, List.tail_cons]
    by_cases hpe : a.takeWhile (fun z => z != c) = [] ∧
        b.takeWhile (fun z => z != c) = []
    · obtain ⟨hpa0, hpb0⟩ := hpe
      rw [hpa0, hpb0]
      simp only [List.isEmpty_nil, Bool.and_self, if_pos, List.length_nil,
        Nat.add_zero, List.nil_append]
      refine validRepls_mono _ _ _ ia ib (ia + 1) (ib + 1) (by omega) (by omega) ?_
      rw [hpa0, hpb0] at hrec
      simpa using hrec
    · have hne : ((a.takeWhile (fun z => z != c)).isEmpty &&
          (b.takeWhile (fun z => z != c)).isEmpty) = false := by
        rcases Decidable.not_and_iff_or_not.mp hpe with h | h <;>
          simp [List.isEmpty_iff, h]
      rw [hne]
      simp only [if_neg Bool.false_ne_true, List.cons_append, List.nil_append,
        validRepls]
      exact ⟨le_rfl, le_rfl, by omega, by omega, hrec⟩

theorem scriptFrom_eq_nil :
    ∀ cs a b ia ib, List.Sublist cs a → List.Sublist cs b →
      scriptFrom cs a b ia ib = [] → a = b := by
  intro cs
  induction cs with
  | nil =>
    intro a b ia ib _ _ h
    by_cases hab : a = [] ∧ b = []
    · rw [hab.1, hab.2]
    · have hne : (a.isEmpty && b.isEmpty) = false := by
        rcases Decidable.not_and_iff_or_not.mp hab with h1 | h1 <;>
          simp [List.isEmpty_iff, h1]
      rw [scriptFrom, hne] at h
      simp at h
  | cons c cs ih =>
    intro a b ia ib hsa hsb h
    obtain ⟨ta, hda, hea, hsa'⟩ := sublist_split c cs a hsa
    obtain ⟨tb, hdb, heb, hsb'⟩ := sublist_split c cs b hsb
    rw [scriptFrom, hda, hdb] at h
    simp only [List.tail_cons, List.append_eq_nil] at h
    obtain ⟨h1, h2⟩ := h
    have hpe : a.takeWhile (fun z => z != c) = [] ∧
        b.takeWhile (fun z => z != c) = [] := by
      by_cases hp : (a.takeWhile (fun z => z != c)).isEmpty &&
          (b.takeWhile (fun z => z != c)).isEmpty
      · constructor <;>
          [exact List.isEmpty_iff.mp (Bool.and_elim_left hp);
           exact List.isEmpty_iff.mp (Bool.and_elim_right hp)]
      · rw [if_neg hp] at h1
        simp at h1
    have htail := ih ta tb _ _ hsa' hsb' h2
    rw [hea, heb, hpe.1, hpe.2, htail]

theorem scriptFrom_self : ∀ (a : List Line) (ia ib : Nat),
    scriptFrom a a a ia ib = [] := by
  intro a
  induction a with
  | nil => intro ia ib; simp [scriptFrom]
  | cons c a ih =>
    intro ia ib
    have hw : ((c :: a).takeWhile (fun z => z != c)) = [] := by
      simp [List.takeWhile]
    have hd : ((c :: a).dropWhile (fun z => z != c)) = c :: a := by
      simp [List.dropWhile]
    rw [scriptFrom, hw, hd]
    simp only [List.tail_cons, List.isEmpty_nil, Bool.and_self, if_pos,
      List.nil_append]
    exact ih _ _

theorem refine_sublist :
    ∀ cs a b, List.Sublist cs a → List.Sublist cs b →
      List.Sublist (refine cs a b) a ∧ List.Sublist (refine cs a b) b := by
  intro cs
  induction cs with
  | nil =>
    intro a b _ _
    exact ⟨lcs_sublist_left a b, lcs_sublist_right a b⟩
  | cons c cs ih =>
    intro a b hsa hsb
    obtain ⟨ta, hda, hea, hsa'⟩ := sublist_split c cs a hsa
    obtain ⟨tb, hdb, heb, hsb'⟩ := sublist_split c cs b hsb
    rw [refine, hda, hdb]
    simp only [List.tail_cons]
    constructor
    · conv_rhs => rw [hea]
      exact List.Sublist.append (lcs_sublist_left _ _)
        (List.Sublist.cons₂ c (ih ta tb hsa' hsb').1)
    · conv_rhs => rw [heb]
      exact List.Sublist.append (lcs_sublist_right _ _)
        (List.Sublist.cons₂ c (ih ta tb hsa' hsb').2)

theorem refine_self :
    ∀ cs a, List.Sublist cs a → refine cs a a = a := by
  intro cs
  induction cs with
  | nil => intro a _; exact lcs_self a
  | cons c cs ih =>
    intro a hsa
    obtain ⟨ta, hda, hea, hsa'⟩ := sublist_split c cs a hsa
    rw [refine, hda]
    simp only [List.tail_cons]
    rw [lcs_self, ih ta hsa']
    exact hea.symm

theorem myersScript_eq_nil_iff (a b : List Line) :
    myersScript a b = [] ↔ a = b := by
  constructor
  · intro h
    exact scriptFrom_eq_nil (lcs a b) a b 0 0 (lcs_sublist_left a b)
      (lcs_sublist_right a b) h
  · intro h
    subst h
    rw [myersScript, lcs_self]
    exact scriptFrom_self a 0 0

theorem patienceScript_eq_nil_iff (a b : List Line) :
    patienceScript a b = [] ↔ a = b := by
  constructor
  · intro h
    have hs := refine_sublist (patienceAnchors a b) a b
      ((lcs_sublist_left _ _).trans (List.filter_sublist a))
      ((lcs_sublist_right _ _).trans (List.filter_sublist b))
    exact scriptFrom_eq_nil _ a b 0 0 hs.1 hs.2 h
  · intro h
    subst h
    rw [patienceScript, patienceAnchors, lcs_self,
      refine_self _ a (List.filter_sublist a)]
    exact scriptFrom_self a 0 0

theorem histogramScript_eq_nil_iff (a b : List Line) :
    histogramScript a b = [] ↔ a = b := by
  constructor
  · intro h
    have hs := refine_sublist (histogramAnchors a b) a b
      ((lcs_sublist_left _ _).trans (List.filter_sublist a))
      ((lcs_sublist_right _ _).trans (List.filter_sublist b))
    exact scriptFrom_eq_nil _ a b 0 0 hs.1 hs.2 h
  · intro h
    subst h
    rw [histogramScript, histogramAnchors, lcs_self,
      refine_self _ a (List.filter_sublist a)]
    exact scriptFrom_self a 0 0

theorem runDiffs_false : ∀ (rs r0 : List Replacement),
    runDiffs ⟨r0, false⟩ rs = ⟨r0 ++ rs, false⟩ := by
  intro rs
  induction rs with
  | nil => intro r0; simp [runDiffs]
  | cons r rs ih =>
    intro r0
    rw [runDiffs]
    simp only [Bool.false_eq_true, if_neg, ih (r0 ++ [r])]
    simp

theorem runDiffs_true : ∀ (rs r0 : List Replacement),
    runDiffs ⟨r0, true⟩ rs = ⟨r0 ++ rs.take 1, true⟩ := by
  intro rs
  cases rs with
  | nil => intro r0; simp [runDiffs]
  | cons r rs => intro r0; simp [runDiffs]

/-- C2.  For every pair of line-token sequences and every algorithm in
Myers, Patience, ImaraHistogram, `diff` with `stop_early = false` returns
a valid replacement list: every span lies within the bounds of its input
sequence, the spans are pairwise disjoint and in increasing position
order (`validRepls`), and applying the spans transforms the first
sequence into the second (`applyRepl`); the same validity statement holds
for each of the three algorithms. -/
theorem c2_diff_replacements_valid (lines_a lines_b : List Line)
    (algorithm : Algorithm) :
    validRepls lines_a.length lines_b.length
      ((diff lines_a lines_b algorithm false).r) 0 0 ∧
    applyRepl lines_a lines_b ((diff lines_a lines_b algorithm false).r) 0 =
      lines_b := by
  have key : ∀ cs, List.Sublist cs lines_a → List.Sublist cs lines_b →
      validRepls lines_a.length lines_b.length
        (scriptFrom cs lines_a lines_b 0 0) 0 0 ∧
      applyRepl lines_a lines_b (scriptFrom cs lines_a lines_b 0 0) 0 =
        lines_b := by
    intro cs h1 h2
    constructor
    · have h := scriptFrom_valid cs lines_a lines_b 0 0 h1 h2
      simpa using h
    · have h := scriptFrom_applyRepl lines_a lines_b cs lines_a lines_b
        0 0 0 h1 h2 rfl rfl le_rfl
      simpa using h
  cases algorithm with
  | Myers =>
    have hr : (diff lines_a lines_b Algorithm.Myers false).r =
        myersScript lines_a lines_b := by
      simp [diff, runDiffs_false]
    rw [hr]
    exact key (lcs lines_a lines_b) (lcs_sublist_left _ _)
      (lcs_sublist_right _ _)
  | Patience =>
    have hr : (diff lines_a lines_b Algorithm.Patience false).r =
        patienceScript lines_a lines_b := by
      simp [diff, runDiffs_false]
    rw [hr]
    have hs := refine_sublist (patienceAnchors lines_a lines_b) lines_a lines_b
      ((lcs_sublist_left _ _).trans (List.filter_sublist lines_a))
      ((lcs_sublist_right _ _).trans (List.filter_sublist lines_b))
    exact key _ hs.1 hs.2
  | ImaraHistogram =>
    have hr : (diff lines_a lines_b Algorithm.ImaraHistogram false).r =
        histogramScript lines_a lines_b := by
      simp [diff, runImara]
    rw [hr]
    have hs := refine_sublist (histogramAnchors lines_a lines_b) lines_a lines_b
      ((lcs_sublist_left _ _).trans (List.filter_sublist lines_a))
      ((lcs_sublist_right _ _).trans (List.filter_sublist lines_b))
    exact key _ hs.1 hs.2

/-- C7.  The default diff algorithm is Myers: `Algorithm.default` is
`Algorithm.Myers`, `diff` invoked with the default runs the Myers branch,
and the Patience and ImaraHistogram branches run exactly when those
algorithms are selected. -/
theorem c7_default_algorithm_is_myers (lines_a lines_b : List Line)
    (stop_early : Bool) :
    Algorithm.default = Algorithm.Myers ∧
    diff lines_a lines_b Algorithm.default stop_early =
      runDiffs ⟨[], stop_early⟩ (myersScript lines_a lines_b) ∧
    diff lines_a lines_b Algorithm.Patience stop_early =
      runDiffs ⟨[], stop_early⟩ (patienceScript lines_a lines_b) ∧
    diff lines_a lines_b Algorithm.ImaraHistogram stop_early =
      runImara ⟨[], stop_early⟩ (histogramScript lines_a lines_b) :=
  ⟨rfl, rfl, rfl, rfl⟩

/-- C8.  With `stop_early = true` the Myers and Patience branches abort
after recording the first replacement: the result has exactly one span
when the inputs differ and none when they are equal; the ImaraHistogram
branch ignores `stop_early` and records the whole diff. -/
theorem c8_stop_early_behaviour (lines_a lines_b : List Line) :
    (lines_a ≠ lines_b →
      ((diff lines_a lines_b Algorithm.Myers true).r).length = 1 ∧
      ((diff lines_a lines_b Algorithm.Patience true).r).length = 1) ∧
    (lines_a = lines_b →
      (diff lines_a lines_b Algorithm.Myers true).r = [] ∧
      (diff lines_a lines_b Algorithm.Patience true).r = []) ∧
    (diff lines_a lines_b Algorithm.ImaraHistogram true).r =
      (diff lines_a lines_b Algorithm.ImaraHistogram false).r ∧
    (diff lines_a lines_b Algorithm.ImaraHistogram true).r =
      histogramScript lines_a lines_b := by
  refine ⟨?_, ?_, ?_, ?_⟩
  · intro hne
    constructor
    · have hm : myersScript lines_a lines_b ≠ [] := fun h =>
        hne ((myersScript_eq_nil_iff _ _).mp h)
      simp only [diff, runDiffs_true]
      cases hms : myersScript lines_a lines_b with
      | nil => exact absurd hms hm
      | cons r rs => simp
    · have hm : patienceScript lines_a lines_b ≠ [] := fun h =>
        hne ((patienceScript_eq_nil_iff _ _).mp h)
      simp only [diff, runDiffs_true]
      cases hms : patienceScript lines_a lines_b with
      | nil => exact absurd hms hm
      | cons r rs => simp
  · intro heq
    constructor
    · simp only [diff, runDiffs_true]
      rw [(myersScript_eq_nil_iff _ _).mpr heq]
      simp
    · simp only [diff, runDiffs_true]
      rw [(patienceScript_eq_nil_iff _ _).mpr heq]
      simp
  · simp [diff, runImara]
  · simp [diff, runImara]

/-- Witness for C8 at concrete inputs: two distinct one-line files give
exactly one replacement under Myers and Patience with `stop_early`, and
two equal files give none. -/
theorem c8_stop_early_behaviour_witness :
    (([0] : List Line) ≠ [1] ∧
      ((diff [0] [1] Algorithm.Myers true).r).length = 1 ∧
      ((diff [0] [1] Algorithm.Patience true).r).length = 1) ∧
    (([2] : List Line) = [2] ∧
      (diff [2] [2] Algorithm.Myers true).r = [] ∧
      (diff [2] [2] Algorithm.Patience true).r = []) := by
  constructor
  · have h := (c8_stop_early_behaviour [0] [1]).1 (by decide)
    exact ⟨by decide, h.1, h.2⟩
  · have h := ((c8_stop_early_behaviour [2] [2]).2).1 rfl
    exact ⟨rfl, h.1, h.2⟩

/-!
Lemmas about `complete_deps`.
-/

theorem missing_nil_iff (now resultH : List CS) (l : List Nat) :
    l.filter (isMissing none now resultH) = [] ↔
      ∀ d ∈ l, CS.change d ∈ now ∨ CS.change d ∈ resultH := by
  rw [List.filter_eq_nil_iff]
  constructor
  · intro h d hd
    have h1 := h d hd
    simp [isMissing] at h1
    tauto
  · intro h d hd
    simp [isMissing]
    rcases h d hd with h1 | h1 <;> tauto

theorem completeDepsGo_ord (deps : Nat → List Nat) (now : List CS) :
    ∀ fuel stack result resultH out,
      completeDepsGo deps none now fuel stack result resultH = some out →
      (∀ c : Nat, CS.change c ∈ result → CS.change c ∈ resultH) →
      (∀ x ∈ resultH, x ∈ result) →
      ∃ tail, out = result ++ tail ∧ depOrderFrom deps now result tail := by
  intro fuel
  induction fuel with
  | zero =>
    intro stack result resultH out h
    exact absurd h (by simp [completeDepsGo])
  | succ fuel ih =>
    intro stack result resultH out h hcr hrr
    cases stack with
    | nil =>
      simp only [completeDepsGo, Option.some.injEq] at h
      subst h
      exact ⟨[], by simp, trivial⟩
    | cons x stack =>
      cases x with
      | state s =>
        simp only [completeDepsGo] at h
        obtain ⟨tail, hout, hord⟩ :=
          ih stack (result ++ [CS.state s]) resultH out h
            (fun c hc => by
              rcases List.mem_append.mp hc with h1 | h1
              · exact hcr c h1
              · simp at h1)
            (fun y hy => List.mem_append_left _ (hrr y hy))
        refine ⟨CS.state s :: tail, by simpa using hout, ?_⟩
        exact ⟨by simp [depsOfCS], hord⟩
      | change hh =>
        simp only [completeDepsGo] at h
        by_cases hm : (deps hh).filter (isMissing none now resultH) = []
        · rw [if_pos hm] at h
          by_cases hin : CS.change hh ∈ resultH
          · rw [if_pos hin] at h
            exact ih stack result resultH out h hcr hrr
          · rw [if_neg hin] at h
            obtain ⟨tail, hout, hord⟩ :=
              ih stack (result ++ [CS.change hh]) (CS.change hh :: resultH) out h
                (fun c hc => by
                  rcases List.mem_append.mp hc with h1 | h1
                  · exact List.mem_cons_of_mem _ (hcr c h1)
                  · simp at h1
                    rw [h1]
                    exact List.mem_cons_self _ _)
                (fun y hy => by
                  rcases List.mem_cons.mp hy with h1 | h1
                  · rw [h1]
                    exact List.mem_append_right _ (by simp)
                  · exact List.mem_append_left _ (hrr y h1))
            refine ⟨CS.change hh :: tail, by simpa using hout, ?_⟩
            refine ⟨?_, hord⟩
            intro d hd
            rcases (missing_nil_iff now resultH (deps hh)).mp hm d
                (by simpa [depsOfCS] using hd) with h1 | h1
            · exact Or.inl h1
            · exact Or.inr (hrr _ h1)
        · rw [if_neg hm] at h
          exact ih _ result resultH out h hcr hrr

theorem completeDepsGo_mem (deps : Nat → List Nat) (now : List CS) :
    ∀ fuel stack result resultH out,
      completeDepsGo deps none now fuel stack result resultH = some out →
      (∀ x ∈ resultH, x ∈ result) →
      (∀ x ∈ stack, x ∈ out) ∧ (∀ x ∈ result, x ∈ out) := by
  intro fuel
  induction fuel with
  | zero =>
    intro stack result resultH out h
    exact absurd h (by simp [completeDepsGo])
  | succ fuel ih =>
    intro stack result resultH out h hrr
    cases stack with
    | nil =>
      simp only [completeDepsGo, Option.some.injEq] at h
      subst h
      exact ⟨by simp, fun x hx => hx⟩
    | cons x stack =>
      cases x with
      | state s =>
        simp only [completeDepsGo] at h
        obtain ⟨hstk, hres⟩ :=
          ih stack (result ++ [CS.state s]) resultH out h
            (fun y hy => List.mem_append_left _ (hrr y hy))
        refine ⟨?_, fun y hy => hres y (List.mem_append_left _ hy)⟩
        intro y hy
        rcases List.mem_cons.mp hy with h1 | h1
        · rw [h1]
          exact hres _ (List.mem_append_right _ (by simp))
        · exact hstk y h1
      | change hh =>
        simp only [completeDepsGo] at h
        by_cases hm : (deps hh).filter (isMissing none now resultH) = []
        · rw [if_pos hm] at h
          by_cases hin : CS.change hh ∈ resultH
          · rw [if_pos hin] at h
            obtain ⟨hstk, hres⟩ := ih stack result resultH out h hrr
            refine ⟨?_, hres⟩
            intro y hy
            rcases List.mem_cons.mp hy with h1 | h1
            · rw [h1]
              exact hres _ (hrr _ hin)
            · exact hstk y h1
          · rw [if_neg hin] at h
            obtain ⟨hstk, hres⟩ :=
              ih stack (result ++ [CS.change hh]) (CS.change hh :: resultH) out h
                (fun y hy => by
                  rcases List.mem_cons.mp hy with h1 | h1
                  · rw [h1]
                    exact List.mem_append_right _ (by simp)
                  · exact List.mem_append_left _ (hrr y h1))
            refine ⟨?_, fun y hy => hres y (List.mem_append_left _ hy)⟩
            intro y hy
            rcases List.mem_cons.mp hy with h1 | h1
            · rw [h1]
              exact hres _ (List.mem_append_right _ (by simp))
            · exact hstk y h1
        · rw [if_neg hm] at h
          obtain ⟨hstk, hres⟩ := ih _ result resultH out h hrr
          refine ⟨?_, hres⟩
          intro y hy
          exact hstk y (by
            rcases List.mem_cons.mp hy with h1 | h1
            · rw [h1]
              exact List.mem_append_right _ (List.mem_cons_self _ _)
            · exact List.mem_append_right _ (List.mem_cons_of_mem _ h1))

theorem completeDepsGo_nodup (deps : Nat → List Nat) (now : List CS) :
    ∀ fuel stack result resultH out,
      completeDepsGo deps none now fuel stack result resultH = some out →
      result.Nodup →
      (∀ c : Nat, CS.change c ∈ result → CS.change c ∈ resultH) →
      (∀ s : Nat, CS.state s ∈ result → CS.state s ∉ stack) →
      (stack.filter isStateCS).Nodup →
      out.Nodup := by
  intro fuel
  induction fuel with
  | zero =>
    intro stack result resultH out h
    exact absurd h (by simp [completeDepsGo])
  | succ fuel ih =>
    intro stack result resultH out h hnd hcr hsr hst
    cases stack with
    | nil =>
      simp only [completeDepsGo, Option.some.injEq] at h
      subst h
      exact hnd
    | cons x stack =>
      cases x with
      | state s =>
        simp only [completeDepsGo] at h
        have hfs : (CS.state s :: stack).filter isStateCS =
            CS.state s :: stack.filter isStateCS := by
          simp [List.filter, isStateCS]
        rw [hfs] at hst
        have hs_not_stack : CS.state s ∉ stack := by
          intro hmem
          have : CS.state s ∈ stack.filter isStateCS :=
            List.mem_filter.mpr ⟨hmem, by simp [isStateCS]⟩
          exact (List.nodup_cons.mp hst).1 this
        refine ih stack (result ++ [CS.state s]) resultH out h ?_ ?_ ?_
          (List.nodup_cons.mp hst).2
        · rw [List.nodup_append]
          refine ⟨hnd, List.nodup_singleton _, ?_⟩
          intro y hy hy2
          simp at hy2
          subst hy2
          exact hsr s hy (List.mem_cons_self _ _)
        · intro c hc
          rcases List.mem_append.mp hc with h1 | h1
          · exact hcr c h1
          · simp at h1
        · intro s1 hs1
          rcases List.mem_append.mp hs1 with h1 | h1
          · intro hmem
            exact hsr s1 h1 (List.mem_cons_of_mem _ hmem)
          · simp at h1
            rw [h1]
            exact hs_not_stack
      | change hh =>
        simp only [completeDepsGo] at h
        have hfs : (CS.change hh :: stack).filter isStateCS =
            stack.filter isStateCS := by
          simp [List.filter, isStateCS]
        rw [hfs] at hst
        by_cases hm : (deps hh).filter (isMissing none now resultH) = []
        · rw [if_pos hm] at h
          by_cases hin : CS.change hh ∈ resultH
          · rw [if_pos hin] at h
            refine ih stack result resultH out h hnd hcr ?_ hst
            intro s1 hs1 hmem
            exact hsr s1 hs1 (List.mem_cons_of_mem _ hmem)
          · rw [if_neg hin] at h
            refine ih stack (result ++ [CS.change hh]) (CS.change hh :: resultH)
              out h ?_ ?_ ?_ hst
            · rw [List.nodup_append]
              refine ⟨hnd, List.nodup_singleton _, ?_⟩
              intro y hy hy2
              simp at hy2
              subst hy2
              exact hin (hcr hh hy)
            · intro c hc
              rcases List.mem_append.mp hc with h1 | h1
              · exact List.mem_cons_of_mem _ (hcr c h1)
              · simp at h1
                rw [h1]
                exact List.mem_cons_self _ _
            · intro s1 hs1 hmem
              rcases List.mem_append.mp hs1 with h1 | h1
              · exact hsr s1 h1 (List.mem_cons_of_mem _ hmem)
              · simp at h1
        · rw [if_neg hm] at h
          have hfs2 : (((deps hh).filter (isMissing none now resultH)).reverse.map
              CS.change ++ CS.change hh :: stack).filter isStateCS =
              stack.filter isStateCS := by
            rw [List.filter_append]
            have : (((deps hh).filter (isMissing none now resultH)).reverse.map
                CS.change).filter isStateCS = [] := by
              rw [List.filter_eq_nil_iff]
              intro a ha
              obtain ⟨d, _, hd⟩ := List.mem_map.mp ha
              rw [← hd]
              simp [isStateCS]
            rw [this, List.nil_append, List.filter, isStateCS]
          refine ih _ result resultH out h hnd hcr ?_ (by rw [hfs2]; exact hst)
          intro s1 hs1 hmem
          rcases List.mem_append.mp hmem with h1 | h1
          · obtain ⟨d, _, hd⟩ := List.mem_map.mp h1
            exact CS.noConfusion hd
          · rcases List.mem_cons.mp h1 with h2 | h2
            · exact CS.noConfusion h2
            · exact hsr s1 hs1 (List.mem_cons_of_mem _ h2)

theorem depOrderFrom_closure (deps : Nat → List Nat) (now : List CS) :
    ∀ tail seen, depOrderFrom deps now seen tail →
      ∀ c : Nat, CS.change c ∈ tail → ∀ d ∈ deps c,
        CS.change d ∈ now ∨ CS.change d ∈ seen ++ tail := by
  intro tail
  induction tail with
  | nil =>
    intro seen _ c hc
    simp at hc
  | cons x rest ih =>
    intro seen hord c hc d hd
    obtain ⟨h1, h2⟩ := hord
    rcases List.mem_cons.mp hc with hx | hx
    · rcases h1 d (by rw [← hx]; simpa [depsOfCS] using hd) with h3 | h3
      · exact Or.inl h3
      · exact Or.inr (List.mem_append_left _ h3)
    · rcases ih (seen ++ [x]) h2 c hx d hd with h3 | h3
      · exact Or.inl h3
      · right
        have h4 : CS.change d ∈ (seen ++ [x]) ++ rest := h3
        rw [List.append_assoc] at h4
        simpa using h4

/-- C3 counterexample.  The claim says `complete_deps` (with no original
list) returns a list without duplicates in which every dependency of a
listed change appears earlier than the change depending on it.  With the
dependency function sending change 1 to change 2 and the requested list
holding change 1 before change 2 (plus a tag state twice), the returned
list keeps change 2 after change 1 — the dependency appears later, not
earlier — and keeps the duplicated state. -/
theorem c3_counterexample :
    complete_deps (fun n => if n = 1 then [2] else []) none
      [CS.change 1, CS.change 2, CS.state 5, CS.state 5] 20 =
      some [CS.change 1, CS.change 2, CS.state 5, CS.state 5] ∧
    ¬ ([CS.change 1, CS.change 2, CS.state 5, CS.state 5] : List CS).Nodup ∧
    ¬ depsStrictlyBefore (fun n => if n = 1 then [2] else [])
      [CS.change 1, CS.change 2, CS.state 5, CS.state 5] := by
  refine ⟨rfl, by decide, ?_⟩
  intro hsb
  obtain ⟨j, hj1, _⟩ := hsb ⟨0, by decide⟩ 2 (by decide)
  have hj0 : j.val < 0 := hj1
  omega

/-- C3 amended.  For every change store and every explicitly requested
list of changes without duplicates, when the `complete_deps` loop
terminates (`some out`) the returned list contains every requested entry,
contains no duplicates, is closed under dependencies, and every
dependency of a listed change either is itself an explicitly requested
entry or appears earlier in the list than the change depending on it
(`depOrderFrom`).  The pull apply loop then iterates this list in reverse
with the recursive `apply_change_rec_ws`, which installs dependencies
before dependents. -/
theorem c3_complete_deps_amended (deps : Nat → List Nat) (now out : List CS)
    (fuel : Nat) (hnd : now.Nodup)
    (h : complete_deps deps none now fuel = some out) :
    (∀ x ∈ now, x ∈ out) ∧ out.Nodup ∧
    (∀ c : Nat, CS.change c ∈ out → ∀ d ∈ deps c, CS.change d ∈ out) ∧
    depOrderFrom deps now [] out := by
  rw [complete_deps] at h
  have hmem := completeDepsGo_mem deps now fuel now [] [] out h (by simp)
  have hnodup := completeDepsGo_nodup deps now fuel now [] [] out h
    List.nodup_nil (by simp) (by simp) (hnd.filter _)
  obtain ⟨tail, hout, hordtail⟩ :=
    completeDepsGo_ord deps now fuel now [] [] out h (by simp) (by simp)
  simp only [List.nil_append] at hout
  subst hout
  refine ⟨hmem.1, hnodup, ?_, hordtail⟩
  intro c hc d hd
  rcases depOrderFrom_closure deps now out [] hordtail c hc d hd with h1 | h1
  · exact hmem.1 _ h1
  · simpa using h1

/-- Witness for the amended C3 at a concrete input: requesting change 3,
which depends on the missing change 4, yields the closed, ordered list
with change 4 first. -/
theorem c3_complete_deps_amended_witness :
    ([CS.change 3] : List CS).Nodup ∧
    complete_deps (fun n => if n = 3 then [4] else []) none [CS.change 3] 10 =
      some [CS.change 4, CS.change 3] ∧
    ((∀ x ∈ ([CS.change 3] : List CS),
        x ∈ ([CS.change 4, CS.change 3] : List CS)) ∧
      ([CS.change 4, CS.change 3] : List CS).Nodup ∧
      (∀ c : Nat, CS.change c ∈ ([CS.change 4, CS.change 3] : List CS) →
        ∀ d ∈ (fun n => if n = 3 then [4] else ([] : List Nat)) c,
          CS.change d ∈ ([CS.change 4, CS.change 3] : List CS)) ∧
      depOrderFrom (fun n => if n = 3 then [4] else []) [CS.change 3] []
        [CS.change 4, CS.change 3]) :=
  ⟨by decide, rfl,
    c3_complete_deps_amended (fun n => if n = 3 then [4] else [])
      [CS.change 3] [CS.change 4, CS.change 3] 10 (by decide) rfl⟩

/-!
Lemmas for the apply/unapply inverse law.
-/

theorem restore_mark (dels : List (Nat × Nat)) (s t : Nat) (fl ps : Bool)
    (ib : Nat) (hal : (s, t) ∈ dels → fl = true) :
    restoreDeleted dels (markDeleted dels (Edge.mk s t fl ps ib)) =
      Edge.mk s t fl ps ib := by
  by_cases hm : (s, t) ∈ dels
  · simp [markDeleted, restoreDeleted, hm, hal hm]
  · simp [markDeleted, restoreDeleted, hm]

theorem filterStamp_append (g ne pe : List Edge) (cid : Nat)
    (dels : List (Nat × Nat))
    (hfresh : ∀ e ∈ g, e.introducedBy ≠ cid)
    (hnew : ∀ e ∈ ne, e.introducedBy = cid)
    (hpseudo : ∀ e ∈ pe, e.introducedBy = cid)
    (halive : ∀ e ∈ g, (e.src, e.tgt) ∈ dels → e.flag = true) :
    ((g.map (markDeleted dels) ++ ne ++ pe).filter
      (fun e => e.introducedBy != cid)).map (restoreDeleted dels) = g := by
  rw [List.filter_append, List.filter_append]
  have h1 : ne.filter (fun e => e.introducedBy != cid) = [] := by
    rw [List.filter_eq_nil_iff]
    intro e he
    simp [hnew e he]
  have h2 : pe.filter (fun e => e.introducedBy != cid) = [] := by
    rw [List.filter_eq_nil_iff]
    intro e he
    simp [hpseudo e he]
  have h3 : (g.map (markDeleted dels)).filter
      (fun e => e.introducedBy != cid) = g.map (markDeleted dels) := by
    rw [List.filter_eq_self]
    intro e he
    obtain ⟨e0, he0, hmapped⟩ := List.mem_map.mp he
    rw [← hmapped]
    have hib : (markDeleted dels e0).introducedBy = e0.introducedBy := by
      cases e0
      simp only [markDeleted]
      split <;> rfl
    rw [hib]
    exact bne_iff_ne.mpr (hfresh e0 he0)
  rw [h1, h2, h3, List.append_nil, List.append_nil, List.map_map]
  have h4 : ∀ e ∈ g, (restoreDeleted dels ∘ markDeleted dels) e = id e := by
    intro e he
    cases e with
    | mk s t fl ps ib => exact restore_mark dels s t fl ps ib (halive _ he)
  rw [List.map_congr_left h4, List.map_id]

theorem stampFilter (l : List (Nat × Nat)) (cid : Nat) (xs : List Nat)
    (f : Nat → Nat × Nat) (hl : ∀ p ∈ l, p.1 ≠ cid)
    (hf : ∀ x, (f x).1 = cid) :
    (l ++ xs.map f).filter (fun p => p.1 != cid) = l := by
  rw [List.filter_append]
  have h1 : (xs.map f).filter (fun p => p.1 != cid) = [] := by
    rw [List.filter_eq_nil_iff]
    intro p hp
    obtain ⟨x, _, hx⟩ := List.mem_map.mp hp
    rw [← hx]
    simp [hf x]
  have h2 : l.filter (fun p => p.1 != cid) = l := by
    rw [List.filter_eq_self]
    intro p hp
    exact bne_iff_ne.mpr (hl p hp)
  rw [h1, h2, List.append_nil]

/-- C1.  For every channel K and change C applicable to K (all
dependencies of C applied in K, together with the freshness and liveness
preconditions of spec section 4.4), unapplying C right after applying it
restores K exactly, in every table of the channel. -/
theorem c1_unapply_of_apply (K : Channel) (C : Change)
    (h : applicable K C) :
    unapplyChange (applyChange K C) C = K := by
  obtain ⟨hdeps, hfresh, hnew, hpseudo, halive, hdep, htouched⟩ := h
  simp only [applyChange, unapplyChange]
  refine Channel.ext ?_ ?_ ?_ ?_ ?_ ?_ ?_ ?_
  · exact filterStamp_append K.graph C.newEdges C.pseudoEdges C.id C.delEdges
      hfresh hnew hpseudo halive
  · simp
  · simp
  · simp
  · rfl
  · simp
  · exact stampFilter K.dep C.id C.deps (fun d => (C.id, d)) hdep (fun x => rfl)
  · exact stampFilter K.touched C.id C.touches (fun i => (C.id, i)) htouched
      (fun x => rfl)

/-- Witness for C1: a channel holding one change (id 0) with a single
alive edge, and an applicable change (id 1) that adds an edge, deletes
the old edge, depends on change 0 and touches one inode. -/
theorem c1_unapply_of_apply_witness :
    applicable
      (Channel.mk [Edge.mk 0 1 true false 0] [(0, 0)] [(0, 0)] [7] []
        1 [] [])
      (Change.mk 1 42 [Edge.mk 1 2 true false 1] [(0, 1)]
        [Edge.mk 0 2 true true 1] [0] [9]) ∧
    unapplyChange
      (applyChange
        (Channel.mk [Edge.mk 0 1 true false 0] [(0, 0)] [(0, 0)] [7] []
          1 [] [])
        (Change.mk 1 42 [Edge.mk 1 2 true false 1] [(0, 1)]
          [Edge.mk 0 2 true true 1] [0] [9]))
      (Change.mk 1 42 [Edge.mk 1 2 true false 1] [(0, 1)]
        [Edge.mk 0 2 true true 1] [0] [9]) =
      Channel.mk [Edge.mk 0 1 true false 0] [(0, 0)] [(0, 0)] [7] []
        1 [] [] := by
  have happ : applicable
      (Channel.mk [Edge.mk 0 1 true false 0] [(0, 0)] [(0, 0)] [7] []
        1 [] [])
      (Change.mk 1 42 [Edge.mk 1 2 true false 1] [(0, 1)]
        [Edge.mk 0 2 true true 1] [0] [9]) := by
    refine ⟨?_, ?_, ?_, ?_, ?_, ?_, ?_⟩ <;> decide
  exact ⟨happ, c1_unapply_of_apply _ _ happ⟩

/-- C4.  `tag reset` projects the tagged state onto the working copy
without altering any channel: whatever the outcome, the channel table of
the pristine (hence every table of every channel), the current-channel
selection and the tag blobs are unchanged; only the working copy can
change. -/
theorem c4_tag_reset_preserves_channels (st : RepoState) (tag : Nat) :
    (runCmd st (tagReset st tag)).channels = st.channels ∧
    (runCmd st (tagReset st tag)).current = st.current ∧
    (runCmd st (tagReset st tag)).tagFiles = st.tagFiles := by
  cases h : st.tagFiles.lookup tag <;> simp [tagReset, runCmd, h]

/-- C5.  `tag checkout` restores the tag into a channel named by the
requested name or, by default, the base32 rendering of the tag hash; when
a channel of that name already exists it fails with an error and the
pristine is unchanged (nothing is committed); otherwise the snapshot in
the tag blob is restored under that name. -/
theorem c5_tag_checkout (st : RepoState) (tag : Nat)
    (toChannel : Option String) :
    ((st.channels.lookup (toChannel.getD (toBase32 tag))).isSome = true →
      isErr (tagCheckout st tag toChannel) = true ∧
      runCmd st (tagCheckout st tag toChannel) = st) ∧
    (∀ snapshot,
      (st.channels.lookup (toChannel.getD (toBase32 tag))).isSome = false →
      st.tagFiles.lookup tag = some snapshot →
      tagCheckout st tag toChannel = Except.ok { st with
        channels := st.channels ++
          [(toChannel.getD (toBase32 tag), restoreChannel snapshot)] }) := by
  constructor
  · intro hex
    rw [tagCheckout]
    simp only [hex, if_pos]
    exact ⟨rfl, rfl⟩
  · intro snapshot hnone hsome
    simp [tagCheckout, hnone, hsome]

/-- Witness for C5: with tag hash 1 (base32 name bars the default), a
pristine already holding a channel of the default name rejects the
checkout unchanged, and a pristine without it restores the snapshot. -/
theorem c5_tag_checkout_witness :
    (((RepoState.mk [(toBase32 1, Channel.mk [] [] [] [] [] 0 [] [])] none []
        [(1, Channel.mk [] [] [] [] [] 0 [] [])]).channels.lookup
          ((none : Option String).getD (toBase32 1))).isSome = true ∧
      isErr (tagCheckout (RepoState.mk
        [(toBase32 1, Channel.mk [] [] [] [] [] 0 [] [])] none []
        [(1, Channel.mk [] [] [] [] [] 0 [] [])]) 1 none) = true ∧
      runCmd (RepoState.mk
        [(toBase32 1, Channel.mk [] [] [] [] [] 0 [] [])] none []
        [(1, Channel.mk [] [] [] [] [] 0 [] [])])
        (tagCheckout (RepoState.mk
          [(toBase32 1, Channel.mk [] [] [] [] [] 0 [] [])] none []
          [(1, Channel.mk [] [] [] [] [] 0 [] [])]) 1 none) =
        RepoState.mk [(toBase32 1, Channel.mk [] [] [] [] [] 0 [] [])] none []
          [(1, Channel.mk [] [] [] [] [] 0 [] [])]) ∧
    (((RepoState.mk [] none [] [(1, Channel.mk [] [] [] [] [] 0 [] [])])
        |>.channels.lookup ((none : Option String).getD (toBase32 1))).isSome
          = false ∧
      (RepoState.mk [] none []
        [(1, Channel.mk [] [] [] [] [] 0 [] [])]).tagFiles.lookup 1 =
        some (Channel.mk [] [] [] [] [] 0 [] []) ∧
      tagCheckout (RepoState.mk [] none []
        [(1, Channel.mk [] [] [] [] [] 0 [] [])]) 1 none =
        Except.ok (RepoState.mk
          [((none : Option String).getD (toBase32 1),
            restoreChannel (Channel.mk [] [] [] [] [] 0 [] []))] none []
          [(1, Channel.mk [] [] [] [] [] 0 [] [])])) := by
  constructor
  · have h := (c5_tag_checkout (RepoState.mk
      [(toBase32 1, Channel.mk [] [] [] [] [] 0 [] [])] none []
      [(1, Channel.mk [] [] [] [] [] 0 [] [])]) 1 none).1 (by decide)
    exact ⟨by decide, h.1, h.2⟩
  · have h := (c5_tag_checkout (RepoState.mk [] none []
      [(1, Channel.mk [] [] [] [] [] 0 [] [])]) 1 none).2
      (Channel.mk [] [] [] [] [] 0 [] []) (by decide) rfl
    exact ⟨by decide, rfl, h⟩

/-- C6.  `channel switch` verifies through Record that the working copy
has no unrecorded changes: whenever the recorded action list is
non-empty the switch fails with an error and the whole repository state
— the current-channel selection and every channel — is unchanged. -/
theorem c6_switch_requires_clean (st : RepoState) (toCh : Option String)
    (actions : List Nat) (h : actions ≠ []) :
    isErr (channelSwitch st toCh actions) = true ∧
    runCmd st (channelSwitch st toCh actions) = st := by
  rw [channelSwitch, if_neg h]
  exact ⟨rfl, rfl⟩

/-- Witness for C6 at a concrete state with one pending recorded
action. -/
theorem c6_switch_requires_clean_witness :
    ([1] : List Nat) ≠ [] ∧
    isErr (channelSwitch (RepoState.mk
      [("main", Channel.mk [] [] [] [] [] 0 [] [])] (some "main") [] [])
      (some "other") [1]) = true ∧
    runCmd (RepoState.mk
      [("main", Channel.mk [] [] [] [] [] 0 [] [])] (some "main") [] [])
      (channelSwitch (RepoState.mk
        [("main", Channel.mk [] [] [] [] [] 0 [] [])] (some "main") [] [])
        (some "other") [1]) =
      RepoState.mk [("main", Channel.mk [] [] [] [] [] 0 [] [])]
        (some "main") [] [] := by
  have h := c6_switch_requires_clean (RepoState.mk
    [("main", Channel.mk [] [] [] [] [] 0 [] [])] (some "main") [] [])
    (some "other") [1] (by decide)
  exact ⟨by decide, h.1, h.2⟩

/-- C9.  `channel delete` refuses to delete the current channel: when the
named channel is the current one the command fails before dropping
anything and the pristine is unchanged; a non-current existing channel is
dropped from the channel table and the transaction committed. -/
theorem c9_channel_delete (st : RepoState) (name : String) :
    (st.current = some name →
      isErr (channelDelete st name) = true ∧
      runCmd st (channelDelete st name) = st) ∧
    (st.current ≠ some name → (st.channels.lookup name).isSome = true →
      channelDelete st name = Except.ok { st with
        channels := st.channels.filter (fun p => p.1 != name) }) := by
  constructor
  · intro hcur
    rw [channelDelete, if_pos hcur]
    exact ⟨rfl, rfl⟩
  · intro hcur hex
    rw [channelDelete, if_neg hcur]
    simp only [hex, if_pos]

/-- Witness for C9: deleting the current channel of a two-channel
pristine is refused unchanged; deleting the other channel drops exactly
it. -/
theorem c9_channel_delete_witness :
    ((RepoState.mk [("main", Channel.mk [] [] [] [] [] 0 [] []),
        ("dev", Channel.mk [] [] [] [] [] 0 [] [])] (some "main") []
        []).current = some "main" ∧
      isErr (channelDelete (RepoState.mk
        [("main", Channel.mk [] [] [] [] [] 0 [] []),
          ("dev", Channel.mk [] [] [] [] [] 0 [] [])] (some "main") [] [])
        "main") = true ∧
      runCmd (RepoState.mk [("main", Channel.mk [] [] [] [] [] 0 [] []),
          ("dev", Channel.mk [] [] [] [] [] 0 [] [])] (some "main") [] [])
        (channelDelete (RepoState.mk
          [("main", Channel.mk [] [] [] [] [] 0 [] []),
            ("dev", Channel.mk [] [] [] [] [] 0 [] [])] (some "main") [] [])
          "main") =
        RepoState.mk [("main", Channel.mk [] [] [] [] [] 0 [] []),
          ("dev", Channel.mk [] [] [] [] [] 0 [] [])] (some "main") [] []) ∧
    channelDelete (RepoState.mk
      [("main", Channel.mk [] [] [] [] [] 0 [] []),
        ("dev", Channel.mk [] [] [] [] [] 0 [] [])] (some "main") [] [])
      "dev" =
      Except.ok (RepoState.mk [("main", Channel.mk [] [] [] [] [] 0 [] [])]
        (some "main") [] []) := by
  constructor
  · have h := (c9_channel_delete (RepoState.mk
      [("main", Channel.mk [] [] [] [] [] 0 [] []),
        ("dev", Channel.mk [] [] [] [] [] 0 [] [])] (some "main") [] [])
      "main").1 rfl
    exact ⟨rfl, h.1, h.2⟩
  · have h := (c9_channel_delete (RepoState.mk
      [("main", Channel.mk [] [] [] [] [] 0 [] []),
        ("dev", Channel.mk [] [] [] [] [] 0 [] [])] (some "main") [] [])
      "dev").2 (by decide) rfl
    rw [h]
    rfl

/-- C10.  `tag create` refuses when Record finds unrecorded changes, when
the channel is empty, or when the latest state of the channel is already
tagged, failing with an error and committing nothing; when the channel is
non-empty, clean and its latest state untagged, it writes one tag blob
addressed by the channel Merkle and adds exactly one `tags` entry at the
latest ordinal. -/
theorem c10_tag_create (st : RepoState) (chName : Option String)
    (actions : List Nat) (name : String) (ch : Channel)
    (hload : loadChannel st chName = some (name, ch)) :
    (actions = [] → ch.changesLog.getLast? = none →
      isErr (tagCreate st chName actions) = true ∧
      runCmd st (tagCreate st chName actions) = st) ∧
    (∀ last, actions = [] → ch.changesLog.getLast? = some last →
      (ch.tags.lookup last.1).isSome = true →
      isErr (tagCreate st chName actions) = true ∧
      runCmd st (tagCreate st chName actions) = st) ∧
    (actions ≠ [] →
      isErr (tagCreate st chName actions) = true ∧
      runCmd st (tagCreate st chName actions) = st) ∧
    (∀ last, actions = [] → ch.changesLog.getLast? = some last →
      (ch.tags.lookup last.1).isSome = false →
      tagCreate st chName actions = Except.ok { st with
        tagFiles := st.tagFiles ++ [(lastMerkle ch, ch)]
        channels := st.channels.map (fun p =>
          if p.1 = name then
            (p.1, { ch with tags := ch.tags ++ [(last.1, lastMerkle ch)] })
          else p) }) := by
  refine ⟨?_, ?_, ?_, ?_⟩
  · intro ha hlast
    simp [tagCreate, hload, ha, hlast, isErr, runCmd]
  · intro last ha hlast htag
    simp [tagCreate, hload, ha, hlast, htag, isErr, runCmd]
  · intro ha
    simp [tagCreate, hload, ha, isErr, runCmd]
  · intro last ha hlast htag
    simp [tagCreate, hload, ha, hlast, htag]

/-- Witness for C10: a one-change untagged channel accepts the tag and
gains exactly one `tags` entry at ordinal 0; an empty channel is
refused unchanged. -/
theorem c10_tag_create_witness :
    (loadChannel (RepoState.mk
        [("main", Channel.mk [] [(0, 5)] [(5, 0)] [3] [] 1 [] [])]
        (some "main") [] []) none =
      some ("main", Channel.mk [] [(0, 5)] [(5, 0)] [3] [] 1 [] []) ∧
      ((Channel.mk [] [(0, 5)] [(5, 0)] [3] [] 1 [] []
        : Channel).changesLog.getLast? = some (0, 5)) ∧
      (((Channel.mk [] [(0, 5)] [(5, 0)] [3] [] 1 [] []
        : Channel).tags.lookup 0).isSome = false) ∧
      tagCreate (RepoState.mk
        [("main", Channel.mk [] [(0, 5)] [(5, 0)] [3] [] 1 [] [])]
        (some "main") [] []) none [] =
        Except.ok (RepoState.mk
          [("main", Channel.mk [] [(0, 5)] [(5, 0)] [3] [(0, 3)] 1 [] [])]
          (some "main") []
          [(3, Channel.mk [] [(0, 5)] [(5, 0)] [3] [] 1 [] [])])) ∧
    (loadChannel (RepoState.mk
        [("e", Channel.mk [] [] [] [] [] 0 [] [])] (some "e") [] []) none =
      some ("e", Channel.mk [] [] [] [] [] 0 [] []) ∧
      isErr (tagCreate (RepoState.mk
        [("e", Channel.mk [] [] [] [] [] 0 [] [])] (some "e") [] [])
        none []) = true ∧
      runCmd (RepoState.mk [("e", Channel.mk [] [] [] [] [] 0 [] [])]
          (some "e") [] [])
        (tagCreate (RepoState.mk
          [("e", Channel.mk [] [] [] [] [] 0 [] [])] (some "e") [] [])
          none []) =
        RepoState.mk [("e", Channel.mk [] [] [] [] [] 0 [] [])]
          (some "e") [] []) := by
  constructor
  · have h := (c10_tag_create (RepoState.mk
      [("main", Channel.mk [] [(0, 5)] [(5, 0)] [3] [] 1 [] [])]
      (some "main") [] []) none [] "main"
      (Channel.mk [] [(0, 5)] [(5, 0)] [3] [] 1 [] [])
      (by decide)).2.2.2 (0, 5) rfl rfl rfl
    refine ⟨by decide, rfl, rfl, ?_⟩
    rw [h]
    rfl
  · have h := (c10_tag_create (RepoState.mk
      [("e", Channel.mk [] [] [] [] [] 0 [] [])] (some "e") [] []) none []
      "e" (Channel.mk [] [] [] [] [] 0 [] []) (by decide)).1 rfl rfl
    exact ⟨by decide, h.1, h.2⟩
